import Mathlib

/-!
Verification of the bibadac core against its specification.

Shallow embedding of `src/bibtex_spec.rs`, `src/author_format.rs` and
`src/linter.rs`.  Strings are modelled as `List Char` (the vocabulary and all
inputs of interest are ASCII, so Rust's byte slicing `s[..k]` coincides with
character `take k`).  Rust `HashSet`s are modelled as duplicate-free lists
(`dedup`); Rust `HashMap` iteration, whose order is unspecified, is modelled
by an explicit reordering parameter constrained to be a permutation.
-/

set_option linter.unusedVariables false

namespace Bibadac

/-- The textbook Levenshtein recurrence, with a fuel argument so that the
recursion is structural (and hence evaluates by kernel reduction).  The fuel
never runs out when it starts at least at the sum of the lengths. -/
def editDistAux : Nat → List Char → List Char → Nat
  | _, [], v => v.length
  | _, a :: u, [] => (a :: u).length
  | 0, _ :: _, _ :: _ => 0
  | n + 1, a :: u, b :: v =>
      min ((if a = b then 0 else 1) + editDistAux n u v)
        (min (1 + editDistAux n u (b :: v)) (1 + editDistAux n (a :: u) v))

/-- Edit distance (spec glossary): minimum number of single-character
insertions, deletions, or substitutions needed to transform one string into
another (no transposition). -/
def editDist (u v : List Char) : Nat :=
  editDistAux (u.length + v.length) u v

/-- `NFA<T>` from `bibtex_spec.rs`. -/
structure NFA (T : Type) where
  final_states : List T
  transitions : List (T × Option Char × T)
  initial_states : List T

/-- `Either<A, B>` from `bibtex_spec.rs`. -/
inductive Either (A B : Type) where
  | Left : A → Either A B
  | Right : B → Either A B
deriving DecidableEq, Repr

/-- `non_deterministic_duplicate` from `bibtex_spec.rs`: two copies of the
automaton; a run starts in the `Left` copy and can switch once to the `Right`
copy, never back.  The switch happens either along a transition, in place, or
along a chain of two consecutive transitions (the second nested loop). -/
def non_deterministic_duplicate {T : Type} [DecidableEq T] (a : NFA T) :
    NFA (Either T T) :=
  let t1 := a.transitions.flatMap fun tr =>
    [(Either.Left tr.1, tr.2.1, Either.Left tr.2.2),
     (Either.Right tr.1, tr.2.1, Either.Right tr.2.2),
     (Either.Left tr.1, none, Either.Right tr.2.2),
     (Either.Left tr.1, none, Either.Right tr.1)]
  let t2 := a.transitions.flatMap fun p =>
    a.transitions.flatMap fun q =>
      if p.2.2 = q.1 then
        [(Either.Left p.1, p.2.1, Either.Right q.2.2),
         (Either.Left p.1, q.2.1, Either.Right q.2.2)]
      else []
  { final_states := a.final_states.map Either.Right
    transitions := t1 ++ t2
    initial_states := a.initial_states.map Either.Left }

/-- `assigning_automaton` from `bibtex_spec.rs`: states are (string index,
character index); the transition list is generated by the source's naive
quadruple loop, including cross-word transitions between words sharing a
prefix. -/
def assigning_automaton (strings : List (List Char)) : NFA (Nat × Nat) :=
  { final_states := strings.enum.map fun p => (p.1, p.2.length)
    transitions := strings.enum.flatMap fun is =>
      strings.enum.flatMap fun jt =>
        is.2.enum.flatMap fun kc =>
          jt.2.enum.filterMap fun ld =>
            if kc.1 = ld.1 ∧ kc.2 = ld.2 ∧ is.2.take kc.1 = jt.2.take ld.1 then
              some ((is.1, kc.1), some kc.2, (jt.1, ld.1 + 1))
            else none
    initial_states := strings.enum.map fun p => (p.1, 0) }

/-- `run_transition` from `bibtex_spec.rs`.  Note that a transition labelled
`none` matches — and thereby consumes — the current input character `d`. -/
def run_transition {T : Type} [DecidableEq T] (f : T) (c : Option Char) (t : T)
    (state : T) (d : Char) : Option T :=
  if state ≠ f then none
  else match c with
    | some e => if e = d then some t else none
    | none => some t

/-- Model of collecting into a Rust `HashSet`: a duplicate-free list.  (The
iteration order of a `HashSet` is unspecified; every statement proved below
about automaton results only uses membership and emptiness, which do not
depend on the order chosen here.) -/
def hash_set {T : Type} [DecidableEq T] (l : List T) : List T :=
  l.foldl (fun acc x => if acc.contains x then acc else acc ++ [x]) []

/-- One step of `run_automaton`: from the current state set, fire every
transition that `run_transition` lets match the input character `c`. -/
def run_step {T : Type} [DecidableEq T] (a : NFA T) (cur : List T) (c : Char) :
    List T :=
  hash_set (cur.flatMap fun st =>
    hash_set (a.transitions.filterMap fun tr =>
      run_transition tr.1 tr.2.1 tr.2.2 st c))

/-- The state set `current_states` of `run_automaton` after the whole input,
before the final-state filter. -/
def run_states {T : Type} [DecidableEq T] (a : NFA T) (s : List Char) : List T :=
  s.foldl (run_step a) (hash_set a.initial_states)

/-- `run_automaton` from `bibtex_spec.rs`. -/
def run_automaton {T : Type} [DecidableEq T] (a : NFA T) (s : List Char) :
    List T :=
  (run_states a s).filter fun st => a.final_states.contains st

/-- `BIBTEX_ENTRY_TYPES` from `bibtex_spec.rs`. -/
def BIBTEX_ENTRY_TYPES : List (List Char) :=
  ["article".data, "book".data, "booklet".data, "conference".data,
   "inbook".data, "incollection".data, "inproceedings".data, "manual".data,
   "mastersthesis".data, "misc".data, "phdthesis".data, "proceedings".data,
   "techreport".data, "unpublished".data, "patent".data, "bookinbook".data,
   "suppbook".data, "suppcollection".data, "suppperiodical".data,
   "mvbook".data, "mvcollection".data, "mvproceedings".data, "talk".data,
   "mapping".data]

/-- `BIBTEX_FIELDS` from `bibtex_spec.rs`. -/
def BIBTEX_FIELDS : List (List Char) :=
  ["address".data, "annote".data, "author".data, "booktitle".data,
   "chapter".data, "crossref".data, "edition".data, "editor".data,
   "howpublished".data, "institution".data, "journal".data, "key".data,
   "month".data, "note".data, "number".data, "organization".data,
   "pages".data, "publisher".data, "school".data, "series".data,
   "title".data, "type".data, "volume".data, "year".data, "eprint".data,
   "archiveprefix".data, "primaryclass".data, "keywords".data]

/-- Mapping the accepting states back to lexicon words, as the result
collection of `field_typo`/`entry_typo` does.  An unedited (`Left`) state, or
an out-of-range word index, hits the source's abort branch, modelled as
`none`. -/
def typo_result (ws : List (List Char)) :
    List (Either (Nat × Nat) (Nat × Nat)) → Option (List (List Char))
  | [] => some []
  | Either.Left _ :: _ => none
  | Either.Right p :: rest =>
      match ws[p.1]?, typo_result ws rest with
      | some w, some out => some (w :: out)
      | _, _ => none

/-- `match_typo` (spec §4.1): build the typo automaton for lexicon `ws` — as
`field_typo_automaton` / `entry_typo_automaton` do once per lexicon — run it,
and map accepting states back to words. -/
def match_typo (ws : List (List Char)) (s : List Char) :
    Option (List (List Char)) :=
  typo_result ws
    (run_automaton (non_deterministic_duplicate (assigning_automaton ws)) s)

/-- `field_typo` from `bibtex_spec.rs`. -/
def field_typo (s : List Char) : Option (List (List Char)) :=
  match_typo BIBTEX_FIELDS s

/-- `entry_typo` from `bibtex_spec.rs`. -/
def entry_typo (s : List Char) : Option (List (List Char)) :=
  match_typo BIBTEX_ENTRY_TYPES s

/-! ### The runner the spec describes (for comparison with `run_automaton`) -/

/-- One round of epsilon expansion: keep the current states and add every
state reachable by one transition labelled `none` without consuming input. -/
def eps_step {T : Type} [DecidableEq T] (a : NFA T) (cur : List T) : List T :=
  hash_set (cur ++ cur.flatMap fun st =>
    a.transitions.filterMap fun tr =>
      if tr.1 = st ∧ tr.2.1 = none then some tr.2.2 else none)

def eps_closure_aux {T : Type} [DecidableEq T] (a : NFA T) :
    Nat → List T → List T
  | 0, cur => cur
  | n + 1, cur => eps_closure_aux a n (eps_step a cur)

/-- Modelled from the spec: the epsilon-closure of a state set ("transitions
labelled `None` consume no input character").  Iterating one expansion round
once per transition saturates, since each round is inflationary. -/
def eps_closure {T : Type} [DecidableEq T] (a : NFA T) (cur : List T) : List T :=
  eps_closure_aux a (a.transitions.length + 1) cur

/-- Standard character step: only transitions labelled with exactly the input
character fire. -/
def std_char_step {T : Type} [DecidableEq T] (a : NFA T) (cur : List T)
    (c : Char) : List T :=
  hash_set (cur.flatMap fun st =>
    a.transitions.filterMap fun tr =>
      if tr.1 = st ∧ tr.2.1 = some c then some tr.2.2 else none)

/-- Modelled from the spec: "run standard subset-construction simulation —
maintain the set of currently-reachable states, resolve epsilon-closure
before consuming each input character, intersect the final reachable set
with the accepting states". -/
def spec_run_automaton {T : Type} [DecidableEq T] (a : NFA T) (s : List Char) :
    List T :=
  (eps_closure a
    (s.foldl (fun cur c => std_char_step a (eps_closure a cur) c)
      (hash_set a.initial_states))).filter
    fun st => a.final_states.contains st

/-- What the source's runner actually does in one step: a transition fires on
input character `c` exactly when its label is `some c` or `none`; either way
the character is consumed. -/
def wildcard_step {T : Type} [DecidableEq T] (a : NFA T) (cur : List T)
    (c : Char) : List T :=
  hash_set (a.transitions.filterMap fun tr =>
    if tr.1 ∈ cur ∧ (tr.2.1 = none ∨ tr.2.1 = some c) then some tr.2.2
    else none)

/-- The reachable-state set under the wildcard reading of `none` labels. -/
def wildcard_reach {T : Type} [DecidableEq T] (a : NFA T) (s : List Char) :
    List T :=
  s.foldl (wildcard_step a) (hash_set a.initial_states)

/-- A one-transition automaton whose single transition is labelled `none`,
used to separate `run_automaton` from the spec's epsilon semantics. -/
def eps_nfa : NFA Nat :=
  { final_states := [1], transitions := [(0, none, 1)], initial_states := [0] }

/-- A one-word assignment automaton on `(Nat × Nat)` states, used to witness
the generic theorems at a concrete instance. -/
def tiny_nfa : NFA (Nat × Nat) :=
  { final_states := [(0, 1)]
    transitions := [((0, 0), some 'a', (0, 1))]
    initial_states := [(0, 0)] }

/-! ### Edit shapes: the three single-edit relations -/

/-- `s` is `p` with exactly one position substituted (possibly by the same
character). -/
def subEdit (s p : List Char) : Prop :=
  ∃ u a b v, p = u ++ a :: v ∧ s = u ++ b :: v

/-- `s` is `p` with one extra character inserted. -/
def insEdit (s p : List Char) : Prop :=
  ∃ u d v, p = u ++ v ∧ s = u ++ d :: v

/-- `s` is `p` with one character deleted. -/
def delEdit (s p : List Char) : Prop :=
  ∃ u d v, p = u ++ d :: v ∧ s = u ++ v

/-- `s` is within one edit of `p` (substitution, insertion or deletion). -/
def OneEditOf (s p : List Char) : Prop :=
  subEdit s p ∨ insEdit s p ∨ delEdit s p

/-- Invariant carried by unedited (`Left`) states of the duplicated typo
automaton: the input read so far is exactly a prefix of the state's word. -/
def LeftInv (ws : List (List Char)) (inp : List Char) (p : Nat × Nat) : Prop :=
  ∃ w, ws[p.1]? = some w ∧ p.2 ≤ w.length ∧ inp = w.take p.2

/-- Invariant carried by edited (`Right`) states: the input read so far is
within one edit of a prefix of the state's word. -/
def RightInv (ws : List (List Char)) (inp : List Char) (p : Nat × Nat) : Prop :=
  ∃ w, ws[p.1]? = some w ∧ p.2 ≤ w.length ∧ OneEditOf inp (w.take p.2)

/-- The combined run invariant of the duplicated typo automaton. -/
def StInv (ws : List (List Char)) (inp : List Char) :
    Either (Nat × Nat) (Nat × Nat) → Prop
  | Either.Left p => LeftInv ws inp p
  | Either.Right p => RightInv ws inp p

/-! ### `author_format.rs` -/

/-- Rust `str::contains(pat)` for a literal pattern: does `needle` occur as a
contiguous substring of the second argument? -/
def contains_sub (needle : List Char) : List Char → Bool
  | [] => needle.isEmpty
  | c :: rest => needle.isPrefixOf (c :: rest) || contains_sub needle rest

/-- Rust `char::is_whitespace`: the Unicode `White_Space` property. -/
def rust_is_whitespace (c : Char) : Bool :=
  let n := c.toNat
  (0x9 ≤ n && n ≤ 0xD) || n == 0x20 || n == 0x85 || n == 0xA0 ||
    n == 0x1680 || (0x2000 ≤ n && n ≤ 0x200A) || n == 0x2028 ||
    n == 0x2029 || n == 0x202F || n == 0x205F || n == 0x3000

/-- Rust `char::is_control`: the Unicode `Cc` category,
`U+0000`–`U+001F` and `U+007F`–`U+009F`. -/
def rust_is_control (c : Char) : Bool :=
  c.toNat < 0x20 || (0x7F ≤ c.toNat && c.toNat ≤ 0x9F)

/-- Rust `str::trim`: strip leading and trailing whitespace. -/
def rust_trim (s : List Char) : List Char :=
  ((s.dropWhile rust_is_whitespace).reverse.dropWhile rust_is_whitespace).reverse

/-- Helper of `split_whitespace`: `acc` is the current token, reversed. -/
def split_ws_aux : List Char → List Char → List (List Char)
  | [], acc => if acc = [] then [] else [acc.reverse]
  | c :: rest, acc =>
      if rust_is_whitespace c then
        if acc = [] then split_ws_aux rest []
        else acc.reverse :: split_ws_aux rest []
      else split_ws_aux rest (c :: acc)

/-- Rust `str::split_whitespace`: whitespace-separated tokens, no empties. -/
def split_whitespace (s : List Char) : List (List Char) :=
  split_ws_aux s []

/-- First occurrence of `sep` in `s`: `some (before, after)` split around it. -/
def split_first (sep : List Char) : List Char → Option (List Char × List Char)
  | [] => none
  | c :: rest =>
      if sep.isPrefixOf (c :: rest) then some ([], (c :: rest).drop sep.length)
      else (split_first sep rest).map fun p => (c :: p.1, p.2)

/-- Fuelled splitting on a separator; the fuel is an upper bound on the number
of separator occurrences and is never exhausted when `sep` is nonempty. -/
def split_on_aux (sep : List Char) : Nat → List Char → List (List Char)
  | 0, s => [s]
  | n + 1, s =>
      match split_first sep s with
      | none => [s]
      | some p => p.1 :: split_on_aux sep n p.2

/-- Rust `authors.split(" and ")`: split on the literal separator,
left-to-right, non-overlapping. -/
def split_and (s : List Char) : List (List Char) :=
  split_on_aux " and ".data (s.length + 1) s

/-- Does a token end with a comma (Rust `str::ends_with(",")`)? -/
def ends_with_comma (t : List Char) : Bool :=
  match t.getLast? with
  | some c => c == ','
  | none => false

/-- The per-component test of `check_authors`: the body of the source's
`for` loop, which validates a component unless it has at least two
whitespace-separated tokens whose first does not end with a comma. -/
def author_component_ok (author : List Char) : Bool :=
  match split_whitespace (rust_trim author) with
  | [] => true
  | [_] => true
  | p0 :: _ :: _ => ends_with_comma p0

/-- `check_authors` from `author_format.rs` (the early-`return false` loop is
the conjunction over components). -/
def check_authors (authors : List Char) : Bool :=
  (split_and authors).all author_component_ok

/-- Modelled from the spec (claim C6): a component is valid exactly when it is
a single whitespace-separated token, or its first whitespace-separated token
ends with a comma. -/
def claim_component_valid (author : List Char) : Bool :=
  match split_whitespace (rust_trim author) with
  | [t] => true
  | p0 :: _ => ends_with_comma p0
  | [] => false

/-! ### `linter.rs` -/

/-- `LintMessage` from `linter.rs`. -/
inductive LintMessage where
  | SyntaxError : List Char → LintMessage
  | EmptyKey : LintMessage
  | WeirdCharacters : List Char → LintMessage
  | AuthorFormat : LintMessage
  | ArxivAsDoi : LintMessage
  | HttpDoi : LintMessage
  | MissingField : List Char → LintMessage
  | UncheckableEntry : LintMessage
  | MissingOptionalField : List Char → LintMessage
  | DuplicateFieldName : List Char → LintMessage
  | DuplicateKey : List Char → LintMessage
  | DuplicateDoiArxivSha256 : List Char → List Char → List Char → LintMessage
  | OutdatedEntry : LintMessage
  | PublishedEquivalent : LintMessage
  | RevokedEntry : LintMessage
deriving DecidableEq, Repr

/-- `Lint` from `linter.rs`: a message plus the source locations that
triggered it.  Locations (tree-sitter `Node`s) are opaque handles, modelled
as `Nat`. -/
structure Lint where
  msg : LintMessage
  loc : List Nat
deriving DecidableEq, Repr

/-- A parsed field: `file.get_slice(field.name)`, the braceless value slice,
and the field's location.  Slice extraction belongs to the external parser
(out of scope per spec §1), so name and value are given as strings. -/
structure BibField where
  name : List Char
  value : List Char
  loc : Nat
deriving DecidableEq, Repr

/-- A parsed entry: its key slice, its ordered field list and its location. -/
structure BibEntry where
  key : List Char
  fields : List BibField
  loc : Nat
deriving DecidableEq, Repr

/-- The document as the linter sees it: the tree-sitter `ERROR` nodes
(snippet and location) surfaced by the `file.iterate()` loop of `lint_file`.
Entries are passed to `lint_file` separately, as in the source. -/
structure BibFile where
  errors : List (List Char × Nat)
deriving DecidableEq, Repr

/-- `LinterState` from `linter.rs`; only `revoked_dois` is consulted by the
lint functions (`arxiv_latest`, `doi_arxiv`, `arxiv_doi` are reserved for
rules that are not implemented). -/
structure LinterState where
  revoked_dois : List (List Char)

/-- Insert into a Rust `HashMap` modelled as an association list: a later
insert with the same key replaces the earlier value. -/
def map_insert {K V : Type} [DecidableEq K] :
    List (K × V) → K → V → List (K × V)
  | [], k, v => [(k, v)]
  | (k', v') :: rest, k, v =>
      if k' = k then (k, v) :: rest else (k', v') :: map_insert rest k v

/-- Rust `iter().collect::<HashMap<_, _>>()`: insert every pair in order,
later pairs overwriting earlier ones. -/
def collect_map {K V : Type} [DecidableEq K] (l : List (K × V)) :
    List (K × V) :=
  l.foldl (fun m p => map_insert m p.1 p.2) []

/-- Rust `HashMap::get`. -/
def map_get {K V : Type} [DecidableEq K] (m : List (K × V)) (k : K) :
    Option V :=
  (m.find? fun p => decide (p.1 = k)).map fun p => p.2

/-- Rust `HashMap::contains_key`. -/
def contains_key {K V : Type} [DecidableEq K] (m : List (K × V)) (k : K) :
    Bool :=
  (map_get m k).isSome

/-- Rust `map.entry(k).or_insert(vec![]).push(v)` folded over a pair list:
group values by key.  Groups are kept in first-occurrence order (the order a
`HashMap` iterates in is unspecified; see `MapOrder`), values in insertion
order. -/
def add_group {K V : Type} [DecidableEq K] :
    List (K × List V) → K → V → List (K × List V)
  | [], k, v => [(k, [v])]
  | (k', vs) :: rest, k, v =>
      if k' = k then (k', vs ++ [v]) :: rest
      else (k', vs) :: add_group rest k v

/-- Group a pair list by key (model of the `HashMap`-of-`Vec` accumulation
pattern of `lint_entry` and `lint_file`). -/
def group_pairs {K V : Type} [DecidableEq K] (l : List (K × V)) :
    List (K × List V) :=
  l.foldl (fun acc p => add_group acc p.1 p.2) []

/-- The iteration orders a run of the program may observe for its three
`HashMap` iterations (`defined_keys` in `lint_entry`, `used_keys` and
`doi_arxiv_sha256` in `lint_file`).  Rust's `HashMap` iteration order is
unspecified and varies between runs, so it is an explicit parameter here. -/
structure MapOrder where
  ofields : List (List Char × List Nat) → List (List Char × List Nat)
  okeys : List (List Char × List Nat) → List (List Char × List Nat)
  otuples : List ((List Char × List Char × List Char) × List Nat) →
    List ((List Char × List Char × List Char) × List Nat)

/-- A `MapOrder` is lawful when each reordering yields a permutation of the
grouped entries, which is all Rust guarantees about `HashMap` iteration. -/
def MapOrder.lawful (o : MapOrder) : Prop :=
  (∀ l, List.Perm (o.ofields l) l) ∧ (∀ l, List.Perm (o.okeys l) l) ∧
    (∀ l, List.Perm (o.otuples l) l)

/-- The identity iteration order (groups in first-insertion order). -/
def id_order : MapOrder :=
  { ofields := id, okeys := id, otuples := id }

/-- The reversed iteration order. -/
def rev_order : MapOrder :=
  { ofields := List.reverse, okeys := List.reverse,
    otuples := List.reverse }

/-- `lint_field` from `linter.rs`: the ordered `if` chain; the first matching
rule returns. -/
def lint_field (revoked_dois : List (List Char)) (key value : List Char) :
    Option LintMessage :=
  if value.isEmpty then some LintMessage.EmptyKey
  else if key == "author".data && !check_authors value then
    some LintMessage.AuthorFormat
  else if key == "doi".data && contains_sub "arXiv".data value then
    some LintMessage.ArxivAsDoi
  else if key == "doi".data && "http".data.isPrefixOf value then
    some LintMessage.HttpDoi
  else if key == "doi".data && revoked_dois.contains value then
    some LintMessage.RevokedEntry
  else if !(key == "doi".data) && !(key == "eprint".data) &&
      !(key == "url".data) &&
      (value.any fun c => !(c == '\n') && (rust_is_control c || c == '\\')) then
    some (LintMessage.WeirdCharacters value)
  else none

/-- The per-entry field map `fields` built (twice) in the source:
`entry.fields.iter().map(...).collect::<HashMap<_, _>>()`. -/
def entry_fields_map (e : BibEntry) : List (List Char × List Char) :=
  collect_map (e.fields.map fun f => (f.name, f.value))

/-- The identifier tuple of `lint_file`, parameterised by the middle field
name so the claimed variant (`"eprint"`) can be compared with the code's
(`"arxiv"`): `(fields.get(name).unwrap_or(""), ...)`. -/
def tuple_using (mid : List Char) (e : BibEntry) :
    List Char × List Char × List Char :=
  ((map_get (entry_fields_map e) "doi".data).getD [],
   (map_get (entry_fields_map e) mid).getD [],
   (map_get (entry_fields_map e) "sha256".data).getD [])

/-- The identifier tuple `(doi, arxiv, sha256)` exactly as `lint_file`
computes it: the middle component reads the `"arxiv"` field. -/
def ident_tuple (e : BibEntry) : List Char × List Char × List Char :=
  tuple_using "arxiv".data e

/-- `lint_entry` from `linter.rs`. -/
def lint_entry (o : MapOrder) (st : LinterState) (e : BibEntry) : List Lint :=
  let fields := entry_fields_map e
  let m1 := ["author".data, "title".data, "year".data].filterMap fun f =>
    if contains_key fields f then none
    else some { msg := LintMessage.MissingField f, loc := [e.loc] }
  let m2 := ["sha256".data].filterMap fun f =>
    if contains_key fields f then none
    else some { msg := LintMessage.MissingOptionalField f, loc := [e.loc] }
  let m3 :=
    if contains_key fields "url".data = false ∧
        contains_key fields "doi".data = false ∧
        contains_key fields "isbn".data = false ∧
        contains_key fields "issn".data = false ∧
        contains_key fields "eprint".data = false ∧
        contains_key fields "pmid".data = false then
      [{ msg := LintMessage.UncheckableEntry, loc := [e.loc] }]
    else []
  let defined := group_pairs (e.fields.map fun f => (f.name, f.loc))
  let m4 := (o.ofields defined).filterMap fun g =>
    if 1 < g.2.length then
      some { msg := LintMessage.DuplicateFieldName g.1, loc := g.2 }
    else none
  let m5 := e.fields.filterMap fun f =>
    (lint_field st.revoked_dois f.name f.value).map fun m =>
      { msg := m, loc := [f.loc] }
  m1 ++ m2 ++ m3 ++ m4 ++ m5

/-- Is a lint the duplicate-identifier-tuple diagnostic? -/
def is_dup_tuple_lint (li : Lint) : Bool :=
  match li.msg with
  | LintMessage.DuplicateDoiArxivSha256 _ _ _ => true
  | _ => false

/-- The qualification test of the duplicate-tuple rule: the tuple is not
entirely empty and the group has more than one entry. -/
def dup_tuple_qualifies
    (g : (List Char × List Char × List Char) × List Nat) : Prop :=
  ¬(g.1.1 = [] ∧ g.1.2.1 = [] ∧ g.1.2.2 = []) ∧ 1 < g.2.length

instance (g : (List Char × List Char × List Char) × List Nat) :
    Decidable (dup_tuple_qualifies g) := by
  unfold dup_tuple_qualifies; infer_instance

/-- `lint_file` from `linter.rs`: syntax errors, per-entry diagnostics,
duplicate keys, duplicate identifier tuples — in that order. -/
def lint_file (o : MapOrder) (st : LinterState) (file : BibFile)
    (entries : List BibEntry) : List Lint :=
  let syn := file.errors.map fun p =>
    { msg := LintMessage.SyntaxError p.1, loc := [p.2] }
  let entryMsgs := entries.flatMap (lint_entry o st)
  let used := group_pairs (entries.map fun e => (e.key, e.loc))
  let tuples := group_pairs (entries.map fun e => (ident_tuple e, e.loc))
  let dupKeys := (o.okeys used).filterMap fun g =>
    if 1 < g.2.length then
      some { msg := LintMessage.DuplicateKey g.1, loc := g.2 }
    else none
  let dupTuples := (o.otuples tuples).filterMap fun g =>
    if dup_tuple_qualifies g then
      some { msg := LintMessage.DuplicateDoiArxivSha256 g.1.1 g.1.2.1 g.1.2.2,
             loc := g.2 }
    else none
  syn ++ entryMsgs ++ dupKeys ++ dupTuples

/-- Modelled from the spec (claim C2): group entries by the identifier tuple
whose middle component reads field `mid`, and emit one diagnostic per
qualifying group with all entry locations. -/
def claim_tuple_diagnostics (mid : List Char) (entries : List BibEntry) :
    List Lint :=
  (group_pairs (entries.map fun e => (tuple_using mid e, e.loc))).filterMap
    fun g =>
      if dup_tuple_qualifies g then
        some { msg := LintMessage.DuplicateDoiArxivSha256 g.1.1 g.1.2.1
                 g.1.2.2,
               loc := g.2 }
      else none

/-! ### `lint_field` as the spec's ordered rule list (claim C7) -/

/-- Modelled from the spec (§4.2): the fixed ordered rule list, each rule a
condition on `(key, value)` together with the message it produces. -/
def field_rules (revoked_dois : List (List Char)) :
    List ((List Char → List Char → Bool) × (List Char → List Char → LintMessage)) :=
  [(fun _ v => v.isEmpty, fun _ _ => LintMessage.EmptyKey),
   (fun k v => k == "author".data && !check_authors v,
    fun _ _ => LintMessage.AuthorFormat),
   (fun k v => k == "doi".data && contains_sub "arXiv".data v,
    fun _ _ => LintMessage.ArxivAsDoi),
   (fun k v => k == "doi".data && "http".data.isPrefixOf v,
    fun _ _ => LintMessage.HttpDoi),
   (fun k v => k == "doi".data && revoked_dois.contains v,
    fun _ _ => LintMessage.RevokedEntry),
   (fun k v => !(k == "doi".data) && !(k == "eprint".data) &&
      !(k == "url".data) &&
      (v.any fun c => !(c == '\n') && (rust_is_control c || c == '\\')),
    fun _ v => LintMessage.WeirdCharacters v)]

/-- Modelled from the spec (§4.2): "only the first matching rule fires". -/
def first_matching_rule (revoked_dois : List (List Char))
    (key value : List Char) : Option LintMessage :=
  (field_rules revoked_dois).findSome? fun r =>
    if r.1 key value then some (r.2 key value) else none

/-! ### Concrete documents used by counterexamples and witnesses -/

/-- An empty linter state. -/
def st0 : LinterState := { revoked_dois := [] }

/-- A document with no parser error nodes. -/
def file0 : BibFile := { errors := [] }

/-- Two entries that agree on an `eprint` field but have no `doi`, `arxiv`
or `sha256` field (used against claim C2). -/
def es_eprint : List BibEntry :=
  [{ key := "k1".data,
     fields := [{ name := "eprint".data, value := "X".data, loc := 10 }],
     loc := 1 },
   { key := "k2".data,
     fields := [{ name := "eprint".data, value := "X".data, loc := 20 }],
     loc := 2 }]

/-- Two entries that agree on an `arxiv` field (used to witness the amended
claim C2). -/
def es_arxiv : List BibEntry :=
  [{ key := "k1".data,
     fields := [{ name := "arxiv".data, value := "X".data, loc := 10 }],
     loc := 1 },
   { key := "k2".data,
     fields := [{ name := "arxiv".data, value := "X".data, loc := 20 }],
     loc := 2 }]

/-- Four entries forming two duplicate-key groups (used against claim C8:
the two groups can be iterated in either order). -/
def es_dupkeys : List BibEntry :=
  [{ key := "a".data, fields := [], loc := 1 },
   { key := "a".data, fields := [], loc := 2 },
   { key := "b".data, fields := [], loc := 3 },
   { key := "b".data, fields := [], loc := 4 }]

/-! ## Lemmas: edit distance -/

theorem editDistAux_fuel : ∀ (n m : Nat) (u v : List Char),
    u.length + v.length ≤ n → u.length + v.length ≤ m →
    editDistAux n u v = editDistAux m u v := by
  intro n
  induction n with
  | zero =>
      intro m u v hn hm
      cases u with
      | nil => cases m <;> simp [editDistAux]
      | cons a u => simp only [List.length_cons] at hn; omega
  | succ n ih =>
      intro m u v hn hm
      cases u with
      | nil => cases m <;> simp [editDistAux]
      | cons a u =>
          cases v with
          | nil => cases m <;> simp [editDistAux]
          | cons b v =>
              simp only [List.length_cons] at hn hm
              cases m with
              | zero => omega
              | succ m =>
                  simp only [editDistAux]
                  rw [ih m u v (by omega) (by omega),
                    ih m u (b :: v) (by simp only [List.length_cons]; omega)
                      (by simp only [List.length_cons]; omega),
                    ih m (a :: u) v (by simp only [List.length_cons]; omega)
                      (by simp only [List.length_cons]; omega)]

theorem editDist_cons_cons (a b : Char) (u v : List Char) :
    editDist (a :: u) (b :: v) =
      min ((if a = b then 0 else 1) + editDist u v)
        (min (1 + editDist u (b :: v)) (1 + editDist (a :: u) v)) := by
  unfold editDist
  have h1 : (a :: u).length + (b :: v).length = u.length + 1 + v.length + 1 := by
    simp only [List.length_cons]; omega
  rw [h1]
  simp only [editDistAux]
  rw [editDistAux_fuel (u.length + 1 + v.length) (u.length + v.length) u v
      (by omega) (by omega),
    editDistAux_fuel (u.length + 1 + v.length) (u.length + (b :: v).length) u
      (b :: v) (by simp only [List.length_cons]; omega)
      (by simp only [List.length_cons]; omega),
    editDistAux_fuel (u.length + 1 + v.length) ((a :: u).length + v.length)
      (a :: u) v (by simp only [List.length_cons]; omega)
      (by simp only [List.length_cons]; omega)]

theorem editDist_self (u : List Char) : editDist u u = 0 := by
  induction u with
  | nil => simp [editDist, editDistAux]
  | cons a u ih =>
      rw [editDist_cons_cons]
      simp [ih]

theorem editDist_sub_le (u v : List Char) (a b : Char) :
    editDist (u ++ b :: v) (u ++ a :: v) ≤ 1 := by
  induction u with
  | nil =>
      simp only [List.nil_append]
      rw [editDist_cons_cons]
      refine le_trans (min_le_left _ _) ?_
      rw [editDist_self]
      by_cases h : b = a <;> simp [h]
  | cons c u ih =>
      simp only [List.cons_append]
      rw [editDist_cons_cons]
      refine le_trans (min_le_left _ _) ?_
      simpa using ih

theorem editDist_ins_le (u v : List Char) (d : Char) :
    editDist (u ++ d :: v) (u ++ v) ≤ 1 := by
  induction u with
  | nil =>
      cases v with
      | nil => simp [editDist, editDistAux]
      | cons b v =>
          simp only [List.nil_append]
          rw [editDist_cons_cons]
          refine le_trans (min_le_right _ _) ?_
          refine le_trans (min_le_left _ _) ?_
          rw [editDist_self]
  | cons c u ih =>
      simp only [List.cons_append]
      rw [editDist_cons_cons]
      refine le_trans (min_le_left _ _) ?_
      simpa using ih

theorem editDist_del_le (u v : List Char) (d : Char) :
    editDist (u ++ v) (u ++ d :: v) ≤ 1 := by
  induction u with
  | nil =>
      cases v with
      | nil => simp [editDist, editDistAux]
      | cons b v =>
          simp only [List.nil_append]
          rw [editDist_cons_cons]
          refine le_trans (min_le_right _ _) ?_
          refine le_trans (min_le_right _ _) ?_
          rw [editDist_self]
  | cons c u ih =>
      simp only [List.cons_append]
      rw [editDist_cons_cons]
      refine le_trans (min_le_left _ _) ?_
      simpa using ih

theorem OneEditOf.editDist_le {s p : List Char} (h : OneEditOf s p) :
    editDist s p ≤ 1 := by
  rcases h with ⟨u, a, b, v, hp, hs⟩ | ⟨u, d, v, hp, hs⟩ | ⟨u, d, v, hp, hs⟩
  · subst hp; subst hs; exact editDist_sub_le u v a b
  · subst hp; subst hs; exact editDist_ins_le u v d
  · subst hp; subst hs; exact editDist_del_le u v d

theorem OneEditOf.append {s p : List Char} (c : Char) (h : OneEditOf s p) :
    OneEditOf (s ++ [c]) (p ++ [c]) := by
  rcases h with ⟨u, a, b, v, hp, hs⟩ | ⟨u, d, v, hp, hs⟩ | ⟨u, d, v, hp, hs⟩
  · exact Or.inl ⟨u, a, b, v ++ [c], by simp [hp], by simp [hs]⟩
  · exact Or.inr (Or.inl ⟨u, d, v ++ [c], by simp [hp], by simp [hs]⟩)
  · exact Or.inr (Or.inr ⟨u, d, v ++ [c], by simp [hp], by simp [hs]⟩)

/-! ## Lemmas: set model and the runner -/

theorem mem_hash_set {T : Type} [DecidableEq T] {l : List T} {x : T} :
    x ∈ hash_set l ↔ x ∈ l := by
  have key : ∀ acc : List T,
      x ∈ l.foldl (fun acc y => if acc.contains y then acc else acc ++ [y]) acc
        ↔ x ∈ acc ∨ x ∈ l := by
    induction l with
    | nil => simp
    | cons y l ih =>
        intro acc
        simp only [List.foldl_cons]
        rw [ih]
        by_cases hc : acc.contains y = true
        · have hy : y ∈ acc := by
            rw [← List.elem_iff]; exact hc
          rw [if_pos hc]
          simp only [List.mem_cons]
          constructor
          · rintro (h | h)
            · exact Or.inl h
            · exact Or.inr (Or.inr h)
          · rintro (h | h | h)
            · exact Or.inl h
            · exact Or.inl (h ▸ hy)
            · exact Or.inr h
        · rw [if_neg hc]
          simp only [List.mem_append, List.mem_singleton, List.mem_cons,
            List.not_mem_nil, or_false]
          constructor
          · rintro ((h | h) | h)
            · exact Or.inl h
            · exact Or.inr (Or.inl h)
            · exact Or.inr (Or.inr h)
          · rintro (h | h | h)
            · exact Or.inl (Or.inl h)
            · exact Or.inl (Or.inr h)
            · exact Or.inr h
  unfold hash_set
  rw [key []]
  simp

theorem run_transition_eq_some {T : Type} [DecidableEq T] {f : T}
    {c : Option Char} {t st : T} {d : Char} {x : T} :
    run_transition f c t st d = some x ↔
      st = f ∧ x = t ∧ (c = none ∨ c = some d) := by
  unfold run_transition
  by_cases h : st = f
  · cases c with
    | none => simp [h, eq_comm]
    | some e =>
        by_cases he : e = d
        · simp [h, he, eq_comm]
        · simp [h, he]
  · simp [h]

theorem mem_run_step {T : Type} [DecidableEq T] {a : NFA T} {cur : List T}
    {c : Char} {x : T} :
    x ∈ run_step a cur c ↔ ∃ st ∈ cur, ∃ tr ∈ a.transitions,
      run_transition tr.1 tr.2.1 tr.2.2 st c = some x := by
  unfold run_step
  rw [mem_hash_set]
  simp only [List.mem_flatMap, List.mem_filterMap, mem_hash_set]

theorem run_states_append {T : Type} [DecidableEq T] (a : NFA T)
    (s : List Char) (c : Char) :
    run_states a (s ++ [c]) = run_step a (run_states a s) c := by
  unfold run_states
  rw [List.foldl_append]
  rfl

theorem mem_run_automaton {T : Type} [DecidableEq T] {a : NFA T}
    {s : List Char} {x : T} :
    x ∈ run_automaton a s ↔ x ∈ run_states a s ∧ x ∈ a.final_states := by
  unfold run_automaton
  rw [List.mem_filter]
  simp [List.contains, List.elem_iff]

theorem mem_ite_nil {α : Type} {c : Prop} [Decidable c] {l : List α} {x : α} :
    x ∈ (if c then l else []) ↔ c ∧ x ∈ l := by
  by_cases h : c <;> simp [h]

theorem mem_assigning_transitions {ws : List (List Char)}
    {tr : (Nat × Nat) × Option Char × (Nat × Nat)} :
    tr ∈ (assigning_automaton ws).transitions ↔
      ∃ i j k c s t, ws[i]? = some s ∧ ws[j]? = some t ∧
        s[k]? = some c ∧ t[k]? = some c ∧ s.take k = t.take k ∧
        tr = ((i, k), some c, (j, k + 1)) := by
  unfold assigning_automaton
  simp only [List.mem_flatMap, List.mem_filterMap, Prod.exists,
    List.mk_mem_enum_iff_getElem?]
  constructor
  · rintro ⟨i, s, hs, ⟨j, t, ht, k, c, hc, l, d, hd, h⟩⟩
    by_cases hcond : k = l ∧ c = d ∧ s.take k = t.take l
    · rw [if_pos hcond] at h
      obtain ⟨hkl, hcd, htake⟩ := hcond
      subst hkl; subst hcd
      cases h
      exact ⟨i, j, k, c, s, t, hs, ht, hc, hd, htake, rfl⟩
    · rw [if_neg hcond] at h
      cases h
  · rintro ⟨i, j, k, c, s, t, hs, ht, hc, htc, htake, rfl⟩
    refine ⟨i, s, hs, j, t, ht, k, c, hc, k, c, htc, ?_⟩
    rw [if_pos ⟨rfl, rfl, htake⟩]

theorem mem_dup_transitions {T : Type} [DecidableEq T] {a : NFA T}
    {tr : Either T T × Option Char × Either T T} :
    tr ∈ (non_deterministic_duplicate a).transitions ↔
      (∃ b ∈ a.transitions,
        tr = (Either.Left b.1, b.2.1, Either.Left b.2.2) ∨
        tr = (Either.Right b.1, b.2.1, Either.Right b.2.2) ∨
        tr = (Either.Left b.1, none, Either.Right b.2.2) ∨
        tr = (Either.Left b.1, none, Either.Right b.1)) ∨
      (∃ p ∈ a.transitions, ∃ q ∈ a.transitions, p.2.2 = q.1 ∧
        (tr = (Either.Left p.1, p.2.1, Either.Right q.2.2) ∨
         tr = (Either.Left p.1, q.2.1, Either.Right q.2.2))) := by
  unfold non_deterministic_duplicate
  simp only [List.mem_append, List.mem_flatMap, List.mem_cons,
    List.not_mem_nil, or_false, mem_ite_nil]

theorem mem_dup_assigning_initial {ws : List (List Char)}
    {st : Either (Nat × Nat) (Nat × Nat)} :
    st ∈ (non_deterministic_duplicate (assigning_automaton ws)).initial_states
      ↔ ∃ i, i < ws.length ∧ st = Either.Left (i, 0) := by
  unfold non_deterministic_duplicate assigning_automaton
  simp only [List.mem_map]
  constructor
  · rintro ⟨p, hp, rfl⟩
    rcases hp with ⟨⟨i, s⟩, hq, rfl⟩
    rw [List.mk_mem_enum_iff_getElem?] at hq
    exact ⟨i, (List.getElem?_eq_some_iff.mp hq).1, rfl⟩
  · rintro ⟨i, hi, rfl⟩
    refine ⟨(i, 0), ⟨(i, ws[i]), ?_, rfl⟩, rfl⟩
    rw [List.mk_mem_enum_iff_getElem?]
    exact List.getElem?_eq_getElem hi

theorem mem_dup_assigning_final {ws : List (List Char)}
    {st : Either (Nat × Nat) (Nat × Nat)} :
    st ∈ (non_deterministic_duplicate (assigning_automaton ws)).final_states
      ↔ ∃ i w, ws[i]? = some w ∧ st = Either.Right (i, w.length) := by
  unfold non_deterministic_duplicate assigning_automaton
  simp only [List.mem_map]
  constructor
  · rintro ⟨p, hp, rfl⟩
    rcases hp with ⟨⟨i, s⟩, hq, rfl⟩
    rw [List.mk_mem_enum_iff_getElem?] at hq
    exact ⟨i, s, hq, rfl⟩
  · rintro ⟨i, w, hw, rfl⟩
    refine ⟨(i, w.length), ⟨(i, w), ?_, rfl⟩, rfl⟩
    rw [List.mk_mem_enum_iff_getElem?]
    exact hw

theorem take_succ_of_lt {t : List Char} {k : Nat} (h : k < t.length) :
    t.take (k + 1) = t.take k ++ [t[k]] := by
  rw [List.take_succ, List.getElem?_eq_getElem h]
  rfl

theorem getElem_eq_of_take_succ_eq {t1 t2 : List Char} {k : Nat}
    (h : t1.take (k + 1) = t2.take (k + 1)) (h1 : k < t1.length)
    (h2 : k < t2.length) : t1[k] = t2[k] := by
  have hc := congrArg (fun l => l[k]?) h
  simp only [List.getElem?_take_of_lt (Nat.lt_succ_self k)] at hc
  rw [List.getElem?_eq_getElem h1, List.getElem?_eq_getElem h2] at hc
  exact Option.some.inj hc

theorem take_eq_of_take_succ_eq {t1 t2 : List Char} {k : Nat}
    (h : t1.take (k + 1) = t2.take (k + 1)) : t1.take k = t2.take k := by
  have hc := congrArg (List.take k) h
  simpa [List.take_take, Nat.min_eq_left (Nat.le_succ k)] using hc

/-- Preservation of the run invariant by one step of the runner on the
duplicated typo automaton.  The case analysis follows the four mirrored
transitions and the two chain transitions of
`non_deterministic_duplicate`. -/
theorem step_preserves_inv {ws : List (List Char)} {pre : List Char}
    {c : Char} {cur : List (Either (Nat × Nat) (Nat × Nat))}
    (h : ∀ st ∈ cur, StInv ws pre st) :
    ∀ st' ∈ run_step (non_deterministic_duplicate (assigning_automaton ws))
      cur c, StInv ws (pre ++ [c]) st' := by
  intro st' hst'
  rcases mem_run_step.mp hst' with ⟨st, hstcur, tr, htr, hrun⟩
  rcases run_transition_eq_some.mp hrun with ⟨rfl, rfl, hlab⟩
  have hInv := h _ hstcur
  rcases mem_dup_transitions.mp htr with ⟨b, hb, hcase⟩ | ⟨p, hp, q, hq, hpq, hcase⟩
  · rcases mem_assigning_transitions.mp hb with
      ⟨i, j, k, c0, s, t, hs, ht, hsk, htk, htake, hbeq⟩
    subst hbeq
    obtain ⟨hkt, htkv⟩ := List.getElem?_eq_some_iff.mp htk
    obtain ⟨hks, hskv⟩ := List.getElem?_eq_some_iff.mp hsk
    rcases hcase with h1 | h1 | h1 | h1 <;> rw [h1] at hInv hlab ⊢
    · -- Left (i,k) --some c0--> Left (j,k+1)
      obtain ⟨w, hw, hkw, hpre⟩ : LeftInv ws pre (i, k) := hInv
      have hwseq : w = s := Option.some.inj (hw.symm.trans hs)
      subst hwseq
      have hc0 : c0 = c := by
        rcases hlab with hx | hx
        · exact absurd hx (by simp)
        · exact Option.some.inj hx
      show LeftInv ws (pre ++ [c]) (j, k + 1)
      refine ⟨t, ht, Nat.succ_le_of_lt hkt, ?_⟩
      rw [take_succ_of_lt hkt, htkv, hc0, hpre, htake]
    · -- Right (i,k) --some c0--> Right (j,k+1)
      obtain ⟨w, hw, hkw, hone⟩ : RightInv ws pre (i, k) := hInv
      have hwseq : w = s := Option.some.inj (hw.symm.trans hs)
      subst hwseq
      have hc0 : c0 = c := by
        rcases hlab with hx | hx
        · exact absurd hx (by simp)
        · exact Option.some.inj hx
      show RightInv ws (pre ++ [c]) (j, k + 1)
      refine ⟨t, ht, Nat.succ_le_of_lt hkt, ?_⟩
      rw [take_succ_of_lt hkt, htkv, hc0, ← htake]
      rw [← hc0]
      exact OneEditOf.append c0 hone
    · -- Left (i,k) --none--> Right (j,k+1): substitution, consumes any c
      obtain ⟨w, hw, hkw, hpre⟩ : LeftInv ws pre (i, k) := hInv
      have hwseq : w = s := Option.some.inj (hw.symm.trans hs)
      subst hwseq
      show RightInv ws (pre ++ [c]) (j, k + 1)
      refine ⟨t, ht, Nat.succ_le_of_lt hkt, ?_⟩
      rw [take_succ_of_lt hkt]
      refine Or.inl ⟨t.take k, t[k], c, [], by simp, ?_⟩
      rw [hpre, htake]
    · -- Left (i,k) --none--> Right (i,k): insertion, consumes any c
      obtain ⟨w, hw, hkw, hpre⟩ : LeftInv ws pre (i, k) := hInv
      have hwseq : w = s := Option.some.inj (hw.symm.trans hs)
      have hpre' : pre = s.take k := by rw [← hwseq]; exact hpre
      show RightInv ws (pre ++ [c]) (i, k)
      refine ⟨s, hs, Nat.le_of_lt hks, ?_⟩
      refine Or.inr (Or.inl ⟨s.take k, c, [], by simp, ?_⟩)
      rw [hpre']
  · -- chain transitions: deletion, consumes one of the two chained labels
    rcases mem_assigning_transitions.mp hp with
      ⟨i1, j1, k1, c1, s1, t1, hs1, ht1, hs1k, ht1k, htake1, hpeq⟩
    rcases mem_assigning_transitions.mp hq with
      ⟨i2, j2, k2, c2, s2, t2, hs2, ht2, hs2k, ht2k, htake2, hqeq⟩
    subst hpeq; subst hqeq
    have hpq' : (j1, k1 + 1) = (i2, k2) := hpq
    have hj : j1 = i2 := congrArg Prod.fst hpq'
    have hk : k1 + 1 = k2 := congrArg Prod.snd hpq'
    subst hj; subst hk
    have hs2t1 : s2 = t1 := Option.some.inj (hs2.symm.trans ht1)
    obtain ⟨hk1t1, ht1kv⟩ := List.getElem?_eq_some_iff.mp ht1k
    obtain ⟨hk2t2, ht2kv⟩ := List.getElem?_eq_some_iff.mp ht2k
    have htake2' : t1.take (k1 + 1) = t2.take (k1 + 1) := by
      rw [← hs2t1]; exact htake2
    have hk1t2 : k1 < t2.length := Nat.lt_of_succ_lt hk2t2
    have ht2k1 : t2[k1] = c1 := by
      rw [← getElem_eq_of_take_succ_eq htake2' hk1t1 hk1t2]
      exact ht1kv
    have htk0 : t2.take k1 = t1.take k1 :=
      (take_eq_of_take_succ_eq htake2').symm
    rcases hcase with h1 | h1 <;> rw [h1] at hInv hlab ⊢
    · -- consumed the first chained label c1: input skips c2
      obtain ⟨w, hw, hkw, hpre⟩ : LeftInv ws pre (i1, k1) := hInv
      have hwseq : w = s1 := Option.some.inj (hw.symm.trans hs1)
      have hpre' : pre = s1.take k1 := by rw [← hwseq]; exact hpre
      have hc : c1 = c := by
        rcases hlab with hx | hx
        · exact absurd hx (by simp)
        · exact Option.some.inj hx
      show RightInv ws (pre ++ [c]) (j2, k1 + 1 + 1)
      refine ⟨t2, ht2, Nat.succ_le_of_lt hk2t2, ?_⟩
      rw [take_succ_of_lt hk2t2, take_succ_of_lt hk1t2, ht2kv, ht2k1,
        htk0, ← htake1, ← hpre', ← hc]
      exact Or.inr (Or.inr ⟨pre ++ [c1], c2, [], by simp, by simp⟩)
    · -- consumed the second chained label c2: input skips c1
      obtain ⟨w, hw, hkw, hpre⟩ : LeftInv ws pre (i1, k1) := hInv
      have hwseq : w = s1 := Option.some.inj (hw.symm.trans hs1)
      have hpre' : pre = s1.take k1 := by rw [← hwseq]; exact hpre
      have hc : c2 = c := by
        rcases hlab with hx | hx
        · exact absurd hx (by simp)
        · exact Option.some.inj hx
      show RightInv ws (pre ++ [c]) (j2, k1 + 1 + 1)
      refine ⟨t2, ht2, Nat.succ_le_of_lt hk2t2, ?_⟩
      rw [take_succ_of_lt hk2t2, take_succ_of_lt hk1t2, ht2kv, ht2k1,
        htk0, ← htake1, ← hpre', ← hc]
      exact Or.inr (Or.inr ⟨pre, c1, [c2], by simp, by simp⟩)

/-- The run invariant holds of every state reachable on input `s`. -/
theorem run_states_inv {ws : List (List Char)} (s : List Char)
    {st : Either (Nat × Nat) (Nat × Nat)}
    (hst : st ∈ run_states
      (non_deterministic_duplicate (assigning_automaton ws)) s) :
    StInv ws s st := by
  have aux : ∀ (rest : List Char)
      (cur : List (Either (Nat × Nat) (Nat × Nat))) (pre : List Char),
      (∀ x ∈ cur, StInv ws pre x) →
      ∀ x ∈ List.foldl
        (run_step (non_deterministic_duplicate (assigning_automaton ws)))
        cur rest, StInv ws (pre ++ rest) x := by
    intro rest
    induction rest with
    | nil =>
        intro cur pre h x hx
        simp only [List.foldl_nil] at hx
        simpa using h x hx
    | cons c rest ih =>
        intro cur pre h x hx
        simp only [List.foldl_cons] at hx
        have h' := step_preserves_inv h (c := c)
        have hx' := ih _ (pre ++ [c]) h' x hx
        simpa using hx'
  have hinit : ∀ x ∈ hash_set
      (non_deterministic_duplicate (assigning_automaton ws)).initial_states,
      StInv ws [] x := by
    intro x hx
    rw [mem_hash_set] at hx
    rcases mem_dup_assigning_initial.mp hx with ⟨i, hi, rfl⟩
    exact ⟨ws[i], List.getElem?_eq_getElem hi, Nat.zero_le _, rfl⟩
  have hmain := aux s _ [] hinit st hst
  simpa using hmain

/-- Soundness of the typo automaton: every accepting state reached on input
`s` names a lexicon word within edit distance 1 of `s`. -/
theorem accepted_within_one_edit {ws : List (List Char)} {s : List Char}
    {st : Either (Nat × Nat) (Nat × Nat)}
    (h : st ∈ run_automaton
      (non_deterministic_duplicate (assigning_automaton ws)) s) :
    ∃ i w, ws[i]? = some w ∧ st = Either.Right (i, w.length) ∧
      editDist s w ≤ 1 := by
  rcases mem_run_automaton.mp h with ⟨hreach, hfin⟩
  rcases mem_dup_assigning_final.mp hfin with ⟨i, w, hw, rfl⟩
  have hinv := run_states_inv s hreach
  obtain ⟨w', hw', hlen, hone⟩ : RightInv ws s (i, w.length) := hinv
  have hww : w' = w := Option.some.inj (hw'.symm.trans hw)
  subst hww
  refine ⟨i, w', hw, rfl, ?_⟩
  rw [List.take_length] at hone
  exact hone.editDist_le

theorem typo_result_isSome {ws : List (List Char)}
    {l : List (Either (Nat × Nat) (Nat × Nat))}
    (h : ∀ st ∈ l, ∃ p w, st = Either.Right p ∧ ws[p.1]? = some w) :
    ∃ out, typo_result ws l = some out ∧
      ∀ p w, Either.Right p ∈ l → ws[p.1]? = some w → w ∈ out := by
  induction l with
  | nil => exact ⟨[], rfl, by simp⟩
  | cons st rest ih =>
      obtain ⟨p, w, rfl, hw⟩ := h st (List.mem_cons_self _ _)
      obtain ⟨out, hout, hmem⟩ :=
        ih fun x hx => h x (List.mem_cons_of_mem _ hx)
      refine ⟨w :: out, ?_, ?_⟩
      · simp only [typo_result, hw, hout]
      · intro q w' hq hw'
        rcases List.mem_cons.mp hq with heq | hq'
        · have hqp : q = p := by
            injection heq
          subst hqp
          have : w' = w := Option.some.inj (hw'.symm.trans hw)
          subst this
          exact List.mem_cons_self _ _
        · exact List.mem_cons_of_mem _ (hmem q w' hq' hw')

/-- Every state the runner returns on the duplicated automaton is an edited
(`Right`) state belonging to the final states: the abort branch of
`field_typo`/`entry_typo` is unreachable. -/
theorem run_dup_right {T : Type} [DecidableEq T] {a : NFA T} {s : List Char}
    {st : Either T T}
    (h : st ∈ run_automaton (non_deterministic_duplicate a) s) :
    st ∈ (non_deterministic_duplicate a).final_states ∧
      ∃ p, st = Either.Right p := by
  rcases mem_run_automaton.mp h with ⟨-, hfin⟩
  refine ⟨hfin, ?_⟩
  unfold non_deterministic_duplicate at hfin
  rcases List.mem_map.mp hfin with ⟨p, -, rfl⟩
  exact ⟨p, rfl⟩

theorem match_typo_isSome (ws : List (List Char)) (s : List Char) :
    (match_typo ws s).isSome := by
  have htotal : ∀ st ∈ run_automaton
      (non_deterministic_duplicate (assigning_automaton ws)) s,
      ∃ p w, st = Either.Right p ∧ ws[p.1]? = some w := by
    intro st hst
    rcases mem_run_automaton.mp hst with ⟨-, hfin⟩
    rcases mem_dup_assigning_final.mp hfin with ⟨j, w, hw, rfl⟩
    exact ⟨(j, w.length), w, rfl, hw⟩
  obtain ⟨out, hout, -⟩ := typo_result_isSome htotal
  unfold match_typo
  rw [hout]
  rfl

/-- If every lexicon word is at distance at least 2 from `s`, the typo match
returns (successfully) the empty candidate list. -/
theorem match_typo_empty_of_far {ws : List (List Char)} {s : List Char}
    (h : ∀ w ∈ ws, 2 ≤ editDist s w) : match_typo ws s = some [] := by
  have hrun : run_automaton
      (non_deterministic_duplicate (assigning_automaton ws)) s = [] := by
    rw [List.eq_nil_iff_forall_not_mem]
    intro st hst
    rcases accepted_within_one_edit hst with ⟨i, w, hw, -, hle⟩
    have hwmem : w ∈ ws := by
      obtain ⟨hi, hv⟩ := List.getElem?_eq_some_iff.mp hw
      exact hv ▸ List.getElem_mem hi
    have := h w hwmem
    omega
  unfold match_typo
  rw [hrun]
  rfl

/-- The unedited chain: reading the first `k` characters of lexicon word `i`
keeps its `Left` state reachable. -/
theorem left_chain {ws : List (List Char)} {i : Nat} {w : List Char}
    (hw : ws[i]? = some w) :
    ∀ k, k ≤ w.length → Either.Left (i, k) ∈ run_states
      (non_deterministic_duplicate (assigning_automaton ws)) (w.take k) := by
  intro k
  induction k with
  | zero =>
      intro _
      rw [List.take_zero]
      unfold run_states
      simp only [List.foldl_nil]
      rw [mem_hash_set]
      exact mem_dup_assigning_initial.mpr
        ⟨i, (List.getElem?_eq_some_iff.mp hw).1, rfl⟩
  | succ k ih =>
      intro hk1
      have hk : k < w.length := Nat.lt_of_succ_le hk1
      have hprev := ih (Nat.le_of_lt hk)
      rw [take_succ_of_lt hk, run_states_append]
      apply mem_run_step.mpr
      refine ⟨Either.Left (i, k), hprev,
        (Either.Left (i, k), some w[k], Either.Left (i, k + 1)), ?_, ?_⟩
      · apply mem_dup_transitions.mpr
        refine Or.inl ⟨((i, k), some w[k], (i, k + 1)), ?_, Or.inl rfl⟩
        apply mem_assigning_transitions.mpr
        exact ⟨i, i, k, w[k], w, w, hw, hw, List.getElem?_eq_getElem hk,
          List.getElem?_eq_getElem hk, rfl, rfl⟩
      · exact run_transition_eq_some.mpr ⟨rfl, rfl, Or.inr rfl⟩

/-- Completeness at distance 0: the accepting state of word `i` is reached on
input exactly word `i` (the last character is consumed by the in-transition
switch to the edited copy). -/
theorem right_final_mem {ws : List (List Char)} {i : Nat} {w : List Char}
    (hw : ws[i]? = some w) (hne : w ≠ []) :
    Either.Right (i, w.length) ∈ run_automaton
      (non_deterministic_duplicate (assigning_automaton ws)) w := by
  have hlen : 0 < w.length := List.length_pos.mpr hne
  obtain ⟨n, hn⟩ : ∃ n, w.length = n + 1 := ⟨w.length - 1, by omega⟩
  have hnlt : n < w.length := by omega
  have hchain := left_chain hw n (by omega)
  have hw_decomp : w = w.take n ++ [w[n]] := by
    conv_lhs => rw [← List.take_length w]
    rw [hn, take_succ_of_lt hnlt]
  apply mem_run_automaton.mpr
  constructor
  · have key : Either.Right (i, n + 1) ∈ run_states
        (non_deterministic_duplicate (assigning_automaton ws))
        (w.take n ++ [w[n]]) := by
      rw [run_states_append]
      apply mem_run_step.mpr
      refine ⟨Either.Left (i, n), hchain,
        (Either.Left (i, n), none, Either.Right (i, n + 1)), ?_, ?_⟩
      · apply mem_dup_transitions.mpr
        refine Or.inl ⟨((i, n), some w[n], (i, n + 1)), ?_,
          Or.inr (Or.inr (Or.inl rfl))⟩
        apply mem_assigning_transitions.mpr
        exact ⟨i, i, n, w[n], w, w, hw, hw, List.getElem?_eq_getElem hnlt,
          List.getElem?_eq_getElem hnlt, rfl, rfl⟩
      · exact run_transition_eq_some.mpr ⟨rfl, rfl, Or.inl rfl⟩
    rw [← hw_decomp] at key
    rw [hn]
    exact key
  · exact mem_dup_assigning_final.mpr ⟨i, w, hw, rfl⟩

/-- Reflexivity of the typo match: a nonempty lexicon word matches itself. -/
theorem match_typo_refl {ws : List (List Char)} {s : List Char}
    (hmem : s ∈ ws) (hne : s ≠ []) :
    ∃ out, match_typo ws s = some out ∧ s ∈ out := by
  obtain ⟨i, hi⟩ := List.mem_iff_getElem?.mp hmem
  have hrun := right_final_mem hi hne
  have htotal : ∀ st ∈ run_automaton
      (non_deterministic_duplicate (assigning_automaton ws)) s,
      ∃ p w, st = Either.Right p ∧ ws[p.1]? = some w := by
    intro st hst
    rcases mem_run_automaton.mp hst with ⟨-, hfin⟩
    rcases mem_dup_assigning_final.mp hfin with ⟨j, w, hw, rfl⟩
    exact ⟨(j, w.length), w, rfl, hw⟩
  obtain ⟨out, hout, hmem'⟩ := typo_result_isSome htotal
  exact ⟨out, hout, hmem' (i, s.length) s hrun hi⟩

theorem mem_wildcard_step {T : Type} [DecidableEq T] {a : NFA T}
    {cur : List T} {c : Char} {x : T} :
    x ∈ wildcard_step a cur c ↔ ∃ tr ∈ a.transitions,
      tr.1 ∈ cur ∧ (tr.2.1 = none ∨ tr.2.1 = some c) ∧ x = tr.2.2 := by
  unfold wildcard_step
  rw [mem_hash_set]
  simp only [List.mem_filterMap]
  constructor
  · rintro ⟨tr, htr, hx⟩
    by_cases hc : tr.1 ∈ cur ∧ (tr.2.1 = none ∨ tr.2.1 = some c)
    · rw [if_pos hc] at hx
      cases hx
      exact ⟨tr, htr, hc.1, hc.2, rfl⟩
    · rw [if_neg hc] at hx
      cases hx
  · rintro ⟨tr, htr, hmem, hlab, rfl⟩
    exact ⟨tr, htr, by rw [if_pos ⟨hmem, hlab⟩]⟩

/-- The per-character step of the source's runner computes exactly the
wildcard step, and the whole run differs from the final-state filter of the
wildcard reachability fold in no element. -/
theorem run_states_eq_wildcard_reach {T : Type} [DecidableEq T] (a : NFA T)
    (s : List Char) (x : T) :
    x ∈ run_states a s ↔ x ∈ wildcard_reach a s := by
  have key : ∀ (rest : List Char) (cur1 cur2 : List T),
      (∀ y, y ∈ cur1 ↔ y ∈ cur2) →
      ∀ y, y ∈ List.foldl (run_step a) cur1 rest ↔
        y ∈ List.foldl (wildcard_step a) cur2 rest := by
    intro rest
    induction rest with
    | nil => intro cur1 cur2 h y; simpa using h y
    | cons c rest ih =>
        intro cur1 cur2 h y
        simp only [List.foldl_cons]
        apply ih
        intro z
        rw [mem_run_step, mem_wildcard_step]
        constructor
        · rintro ⟨st, hst, tr, htr, hrt⟩
          rcases run_transition_eq_some.mp hrt with ⟨rfl, rfl, hlab⟩
          exact ⟨tr, htr, (h tr.1).mp hst, hlab, rfl⟩
        · rintro ⟨tr, htr, hmem, hlab, rfl⟩
          exact ⟨tr.1, (h tr.1).mpr hmem, tr, htr,
            run_transition_eq_some.mpr ⟨rfl, rfl, hlab⟩⟩
  exact key s _ _ (fun y => Iff.rfl) x

/-! ## Claim theorems: the typo automaton -/

/-- C1: the claim states that `match_typo` returns exactly the lexicon words
within edit distance 1 of the input.  At the lexicon `["ab"]` and input
`"abx"` — edit distance 1 from `"ab"`, an insertion at the end of the word —
the code returns the empty candidate set, contradicting the claim (and the
source's own doc comment, which promises acceptance at edit distance 1). -/
theorem c1_insertion_at_end_rejected :
    match_typo ["ab".data] "abx".data = some [] ∧
      editDist "abx".data "ab".data = 1 ∧ "ab".data ∈ ["ab".data] := by
  refine ⟨by decide, by decide, by decide⟩

/-- C3 counterexample: the claim says the runner resolves epsilon-closure
(`none`-labelled transitions consume no input) as `spec_run_automaton` does.
On a one-transition automaton whose only transition is labelled `none`, the
code accepts the one-character input `"x"` — the `none` transition consumed
(discarded) the character — while the spec's runner rejects it, and the code
rejects the empty input that the spec's runner accepts. -/
theorem c3_counterexample :
    (1 ∈ run_automaton eps_nfa ['x']) ∧ (1 ∉ spec_run_automaton eps_nfa ['x'])
      ∧ (1 ∉ run_automaton eps_nfa []) ∧ (1 ∈ spec_run_automaton eps_nfa []) := by
  refine ⟨by decide, by decide, by decide, by decide⟩

/-- C3 (amended): the runner does maintain the set of currently-reachable
states and finally intersects with the accepting states, but it performs no
epsilon-closure: on each input character, a transition fires exactly when its
label is `some` of that character or `none`, and in both cases the character
is consumed — `none` labels act as single-character wildcards. -/
theorem c3_amended_wildcard_run {T : Type} [DecidableEq T] (a : NFA T)
    (s : List Char) (st : T) :
    st ∈ run_automaton a s ↔
      st ∈ a.final_states ∧ st ∈ wildcard_reach a s := by
  rw [mem_run_automaton, run_states_eq_wildcard_reach, and_comm]

/-- C4: distance bound (soundness).  Whenever every word of the lexicon is at
edit distance at least 2 from the input, `field_typo` (resp. `entry_typo`)
returns — successfully — the empty candidate set. -/
theorem c4_distance_bound :
    (∀ s, (∀ w ∈ BIBTEX_FIELDS, 2 ≤ editDist s w) →
      field_typo s = some []) ∧
    (∀ s, (∀ w ∈ BIBTEX_ENTRY_TYPES, 2 ≤ editDist s w) →
      entry_typo s = some []) :=
  ⟨fun _ h => match_typo_empty_of_far h, fun _ h => match_typo_empty_of_far h⟩

set_option maxRecDepth 8000 in
/-- C4 witness: `"auth"` is at distance at least 2 from every BibTeX field
name, so `field_typo "auth"` is empty. -/
theorem c4_witness :
    (∀ w ∈ BIBTEX_FIELDS, 2 ≤ editDist "auth".data w) ∧
      field_typo "auth".data = some [] :=
  ⟨by decide, c4_distance_bound.1 "auth".data (by decide)⟩

/-- C5: reflexivity.  Every word of either lexicon is contained in its own
typo-match candidate set (exact matches are accepted). -/
theorem c5_reflexivity :
    (∀ s ∈ BIBTEX_FIELDS, ∃ out, field_typo s = some out ∧ s ∈ out) ∧
    (∀ s ∈ BIBTEX_ENTRY_TYPES, ∃ out, entry_typo s = some out ∧ s ∈ out) := by
  constructor
  · intro s hmem
    have hall : ∀ w ∈ BIBTEX_FIELDS, w ≠ [] := by decide
    exact match_typo_refl hmem (hall s hmem)
  · intro s hmem
    have hall : ∀ w ∈ BIBTEX_ENTRY_TYPES, w ≠ [] := by decide
    exact match_typo_refl hmem (hall s hmem)

/-- C5 witness: `"author"` matches itself in the field lexicon and
`"mvbook"` matches itself in the entry-type lexicon. -/
theorem c5_witness :
    ("author".data ∈ BIBTEX_FIELDS ∧
      ∃ out, field_typo "author".data = some out ∧ "author".data ∈ out) ∧
    ("mvbook".data ∈ BIBTEX_ENTRY_TYPES ∧
      ∃ out, entry_typo "mvbook".data = some out ∧ "mvbook".data ∈ out) :=
  ⟨⟨by decide, c5_reflexivity.1 "author".data (by decide)⟩,
   ⟨by decide, c5_reflexivity.2 "mvbook".data (by decide)⟩⟩

/-- C9: every accepting state of a duplicated automaton is an edited
(`Right`) state, `run_automaton` only returns accepting states, and hence
the abort branch of `field_typo`/`entry_typo` is unreachable: both functions
are total (always return `some`). -/
theorem c9_only_edited_states_final :
    (∀ s, (field_typo s).isSome ∧ (entry_typo s).isSome) ∧
    (∀ (a : NFA (Nat × Nat)) (s : List Char)
      (st : Either (Nat × Nat) (Nat × Nat)),
      st ∈ run_automaton (non_deterministic_duplicate a) s →
        st ∈ (non_deterministic_duplicate a).final_states ∧
          ∃ p, st = Either.Right p) :=
  ⟨fun s => ⟨match_typo_isSome _ _, match_typo_isSome _ _⟩,
   fun _ _ _ h => run_dup_right h⟩

/-- C9 witness: on a concrete one-word automaton, the state reached by the
runner is the edited final state, and `field_typo` succeeds on `"x"`. -/
theorem c9_witness :
    (Either.Right (0, 1) ∈ run_automaton
      (non_deterministic_duplicate tiny_nfa) ['a']) ∧
    (Either.Right (0, 1) ∈
        (non_deterministic_duplicate tiny_nfa).final_states ∧
      ∃ p, (Either.Right (0, 1) : Either (Nat × Nat) (Nat × Nat)) =
        Either.Right p) ∧
    (field_typo "x".data).isSome :=
  ⟨by decide,
   c9_only_edited_states_final.2 tiny_nfa ['a'] (Either.Right (0, 1))
     (by decide),
   (c9_only_edited_states_final.1 "x".data).1⟩

/-! ## Lemmas: author format -/

theorem author_component_ok_iff (comp : List Char) :
    author_component_ok comp = true ↔
      (split_whitespace (rust_trim comp)).length ≤ 1 ∨
        ∃ p0 rest, split_whitespace (rust_trim comp) = p0 :: rest ∧
          ends_with_comma p0 = true := by
  unfold author_component_ok
  rcases hw : split_whitespace (rust_trim comp) with _ | ⟨p0, _ | ⟨p1, rest⟩⟩
  · simp
  · simp
  · simp only [List.length_cons]
    constructor
    · intro h
      exact Or.inr ⟨p0, p1 :: rest, rfl, h⟩
    · rintro (h | ⟨q0, qrest, heq, hq⟩)
      · omega
      · cases heq
        exact hq

/-! ## Lemmas: iteration-order permutations -/

theorem flatMap_perm_pointwise {α β : Type} (l : List α) (f g : α → List β)
    (h : ∀ x, List.Perm (f x) (g x)) :
    List.Perm (l.flatMap f) (l.flatMap g) := by
  induction l with
  | nil => rfl
  | cons a l ih =>
      simp only [List.flatMap_cons]
      exact (h a).append ih

theorem lint_entry_perm {o1 o2 : MapOrder} (h1 : o1.lawful) (h2 : o2.lawful)
    (st : LinterState) (e : BibEntry) :
    List.Perm (lint_entry o1 st e) (lint_entry o2 st e) := by
  unfold lint_entry
  refine List.Perm.append ?_ (List.Perm.refl _)
  refine List.Perm.append (List.Perm.refl _) ?_
  exact List.Perm.filterMap _ ((h1.1 _).trans (h2.1 _).symm)

/-! ## Claim theorems: the linter -/

/-- C6 counterexample: the claim's biconditional fails on the empty author
value.  `""` splits (on `" and "`) into the single component `""`, which has
zero whitespace-separated tokens — so it is neither a mononym nor a
comma-terminated-first-token component, and the claim says the value must be
rejected — yet `check_authors` accepts it (the source's loop body skips
components with fewer than two tokens). -/
theorem c6_counterexample :
    check_authors "".data = true ∧
      ¬(∀ comp ∈ split_and "".data,
        ((split_whitespace (rust_trim comp)).length = 1 ∨
          ∃ p0 rest, split_whitespace (rust_trim comp) = p0 :: rest ∧
            ends_with_comma p0 = true)) := by
  refine ⟨by decide, ?_⟩
  intro h
  have := h [] (by decide)
  rcases this with h1 | ⟨p0, rest, heq, -⟩
  · exact absurd h1 (by decide)
  · have hnil : split_whitespace (rust_trim ([] : List Char)) = [] := by
      decide
    rw [hnil] at heq
    cases heq

/-- C6 (amended): the author-format check accepts a value iff every component
obtained by splitting on `" and "` has at most one whitespace-separated token
(a mononym — or no token at all, for an empty or all-whitespace component) or
its first whitespace-separated token ends with a comma.  The three examples
of the claim behave as stated. -/
theorem c6_amended_author_format :
    (∀ v : List Char, check_authors v = true ↔
      ∀ comp ∈ split_and v,
        ((split_whitespace (rust_trim comp)).length ≤ 1 ∨
          ∃ p0 rest, split_whitespace (rust_trim comp) = p0 :: rest ∧
            ends_with_comma p0 = true)) ∧
    check_authors "Smith, John and Doe, Jane".data = true ∧
    check_authors "Plato".data = true ∧
    check_authors "John Smith and Doe, Jane".data = false := by
  refine ⟨?_, by decide, by decide, by decide⟩
  intro v
  unfold check_authors
  rw [List.all_eq_true]
  constructor
  · intro h comp hc
    exact (author_component_ok_iff comp).mp (h comp hc)
  · intro h comp hc
    exact (author_component_ok_iff comp).mpr (h comp hc)

/-- C8 counterexample: `lint_file` iterates Rust `HashMap`s whose iteration
order is unspecified; two lawful iteration orders (insertion order and its
reverse) produce different diagnostic lists on a document with two
duplicate-key groups, so two runs on the same document need not produce the
same list in the same order. -/
theorem c8_counterexample :
    id_order.lawful ∧ rev_order.lawful ∧
      lint_file id_order st0 file0 es_dupkeys ≠
        lint_file rev_order st0 file0 es_dupkeys := by
  refine ⟨⟨fun l => List.Perm.refl l, fun l => List.Perm.refl l,
    fun l => List.Perm.refl l⟩,
    ⟨fun l => l.reverse_perm, fun l => l.reverse_perm,
      fun l => l.reverse_perm⟩, ?_⟩
  decide

/-- C8 (amended): `lint_file` is deterministic up to the iteration order of
its hash maps: under any two lawful iteration orders the two diagnostic lists
are permutations of each other (the diagnostic multiset, severities and
locations included, is run-independent; only the relative order of the
duplicate-group diagnostics may differ). -/
theorem c8_amended_perm (o1 o2 : MapOrder) (h1 : o1.lawful)
    (h2 : o2.lawful) (st : LinterState) (f : BibFile)
    (es : List BibEntry) :
    List.Perm (lint_file o1 st f es) (lint_file o2 st f es) := by
  unfold lint_file
  refine List.Perm.append ?_ ?_
  · refine List.Perm.append ?_ ?_
    · exact List.Perm.append (List.Perm.refl _)
        (flatMap_perm_pointwise _ _ _ fun e => lint_entry_perm h1 h2 st e)
    · exact List.Perm.filterMap _ ((h1.2.1 _).trans (h2.2.1 _).symm)
  · exact List.Perm.filterMap _ ((h1.2.2 _).trans (h2.2.2 _).symm)

/-- C8 witness: the amended permutation theorem at the concrete document and
the two concrete lawful orders of the counterexample. -/
theorem c8_amended_witness :
    id_order.lawful ∧ rev_order.lawful ∧
      List.Perm (lint_file id_order st0 file0 es_dupkeys)
        (lint_file rev_order st0 file0 es_dupkeys) :=
  ⟨⟨fun l => List.Perm.refl l, fun l => List.Perm.refl l,
    fun l => List.Perm.refl l⟩,
   ⟨fun l => l.reverse_perm, fun l => l.reverse_perm,
     fun l => l.reverse_perm⟩,
   c8_amended_perm id_order rev_order
     ⟨fun l => List.Perm.refl l, fun l => List.Perm.refl l,
       fun l => List.Perm.refl l⟩
     ⟨fun l => l.reverse_perm, fun l => l.reverse_perm,
       fun l => l.reverse_perm⟩ st0 file0 es_dupkeys⟩

/-- C7: `lint_field` produces at most one diagnostic, determined by the first
matching rule of the spec's fixed ordered list (EmptyKey; AuthorFormat;
ArxivAsDoi; HttpDoi; RevokedEntry; WeirdCharacters), and none when no rule
matches; `lint_field("doi", "arXiv:1234")` yields `ArxivAsDoi`, and rule 3
fires before rule 4 on any doi value that both contains `"arXiv"` and starts
with `"http"`. -/
theorem c7_ordered_rule_list :
    (∀ rv k v, lint_field rv k v = first_matching_rule rv k v) ∧
    (∀ rv k v, (∀ r ∈ field_rules rv, r.1 k v = false) →
      lint_field rv k v = none) ∧
    lint_field [] "doi".data "arXiv:1234".data =
      some LintMessage.ArxivAsDoi ∧
    (∀ rv v, contains_sub "arXiv".data v = true →
      "http".data.isPrefixOf v = true →
      lint_field rv "doi".data v = some LintMessage.ArxivAsDoi) := by
  refine ⟨?_, ?_, by decide, ?_⟩
  · intro rv k v
    unfold lint_field first_matching_rule field_rules
    cases h1 : v.isEmpty <;>
      cases h2 : (k == "author".data && !check_authors v) <;>
      cases h3 : (k == "doi".data && contains_sub "arXiv".data v) <;>
      cases h4 : (k == "doi".data && "http".data.isPrefixOf v) <;>
      cases h5 : (k == "doi".data && rv.contains v) <;>
      cases h6 : (!(k == "doi".data) && !(k == "eprint".data) &&
        !(k == "url".data) &&
        (v.any fun c => !(c == '\n') && (rust_is_control c || c == '\\'))) <;>
      simp only [List.findSome?, h1, h2, h3, h4, h5, h6,
        Bool.false_eq_true, eq_self_iff_true, if_true, if_false]
  · intro rv k v h
    unfold lint_field
    simp only [field_rules, List.forall_mem_cons, List.forall_mem_nil] at h
    obtain ⟨e1, e2, e3, e4, e5, e6, -⟩ := h
    simp only [e1, e2, e3, e4, e5, e6, Bool.false_eq_true, if_false]
  · intro rv v h1 h2
    unfold lint_field
    have hne : v.isEmpty = false := by
      cases v
      · exact absurd h2 (by decide)
      · rfl
    have hda : ("doi".data == "author".data) = false := by decide
    simp [hne, h1, hda]

/-- C7 witness: a field with no matching rule gets no diagnostic, and a doi
value that both contains `"arXiv"` and starts with `"http"` gets
`ArxivAsDoi`. -/
theorem c7_witness :
    (∀ r ∈ field_rules [], r.1 "title".data "abc".data = false) ∧
    lint_field [] "title".data "abc".data = none ∧
    contains_sub "arXiv".data "http://arXiv.org/1234".data = true ∧
    "http".data.isPrefixOf "http://arXiv.org/1234".data = true ∧
    lint_field [] "doi".data "http://arXiv.org/1234".data =
      some LintMessage.ArxivAsDoi :=
  ⟨by decide,
   c7_ordered_rule_list.2.1 [] "title".data "abc".data (by decide),
   by decide, by decide,
   c7_ordered_rule_list.2.2.2 [] "http://arXiv.org/1234".data (by decide)
     (by decide)⟩

/-! ## Lemmas: field maps with later-occurrence overwriting -/

theorem map_get_map_insert {K V : Type} [DecidableEq K] (l : List (K × V))
    (k k' : K) (v : V) :
    map_get (map_insert l k v) k' = if k' = k then some v else map_get l k' := by
  induction l with
  | nil =>
      by_cases h : k' = k
      · subst h
        simp [map_insert, map_get, List.find?]
      · have h' : ¬(k = k') := fun hh => h hh.symm
        simp [map_insert, map_get, List.find?, h, h']
  | cons p rest ih =>
      rcases p with ⟨a, b⟩
      by_cases ha : a = k
      · subst ha
        simp only [map_insert, if_pos rfl]
        by_cases h : k' = a
        · subst h
          simp [map_get, List.find?]
        · have h' : ¬(a = k') := fun hh => h hh.symm
          simp [map_get, List.find?, h, h']
      · simp only [map_insert, if_neg ha]
        by_cases h : k' = a
        · subst h
          simp [map_get, List.find?, ha]
        · have h' : ¬(a = k') := fun hh => h hh.symm
          unfold map_get at ih ⊢
          simp [List.find?, h', ih]

theorem collect_map_append {K V : Type} [DecidableEq K] (l : List (K × V))
    (p : K × V) :
    collect_map (l ++ [p]) = map_insert (collect_map l) p.1 p.2 := by
  unfold collect_map
  rw [List.foldl_append]
  rfl

theorem map_get_collect {K V : Type} [DecidableEq K] (l : List (K × V))
    (k : K) :
    map_get (collect_map l) k =
      ((l.filter fun p => decide (p.1 = k)).getLast?).map fun p => p.2 := by
  induction l using List.reverseRecOn with
  | nil => simp [collect_map, map_get, List.find?]
  | append_singleton l p ih =>
      rw [collect_map_append, map_get_map_insert, List.filter_append]
      by_cases h : p.1 = k
      · have hd : decide (p.1 = k) = true := by simp [h]
        rw [List.filter_cons, List.filter_nil, if_pos hd,
          List.getLast?_append]
        simp [h.symm]
      · have h' : ¬(k = p.1) := fun hh => h hh.symm
        have hd : ¬(decide (p.1 = k) = true) := by simp [h]
        rw [List.filter_cons, List.filter_nil, if_neg hd, List.append_nil,
          if_neg h']
        exact ih

theorem contains_key_entry (e : BibEntry) (n : List Char) :
    contains_key (entry_fields_map e) n = true ↔
      ∃ fl ∈ e.fields, fl.name = n := by
  unfold contains_key entry_fields_map
  rw [map_get_collect]
  rw [Option.isSome_map']
  rw [List.getLast?_isSome]
  constructor
  · intro h
    rcases List.exists_mem_of_ne_nil _ h with ⟨q, hq⟩
    rw [List.mem_filter] at hq
    rcases hq with ⟨hq1, hq2⟩
    rcases List.mem_map.mp hq1 with ⟨fl, hfl, rfl⟩
    simp only [decide_eq_true_eq] at hq2
    exact ⟨fl, hfl, hq2⟩
  · rintro ⟨fl, hfl, rfl⟩
    intro hnil
    have : (fl.name, fl.value) ∈ List.filter
        (fun p => decide (p.1 = fl.name))
        (e.fields.map fun f => (f.name, f.value)) := by
      rw [List.mem_filter]
      exact ⟨List.mem_map.mpr ⟨fl, hfl, rfl⟩, by simp⟩
    rw [hnil] at this
    cases this

theorem map_get_entry_fields (e : BibEntry) (n : List Char) :
    map_get (entry_fields_map e) n =
      ((e.fields.filter fun fl => decide (fl.name = n)).getLast?).map
        fun fl => fl.value := by
  unfold entry_fields_map
  rw [map_get_collect]
  have hfm : List.filter (fun p => decide (p.1 = n))
      (e.fields.map fun f => (f.name, f.value)) =
      (e.fields.filter fun fl => decide (fl.name = n)).map
        fun f => (f.name, f.value) := by
    rw [List.filter_map]
    rfl
  rw [hfm, List.getLast?_map, Option.map_map]
  rfl

theorem lint_field_shapes {rv : List (List Char)} {k v : List Char}
    {m : LintMessage} (h : lint_field rv k v = some m) :
    m = LintMessage.EmptyKey ∨ m = LintMessage.AuthorFormat ∨
      m = LintMessage.ArxivAsDoi ∨ m = LintMessage.HttpDoi ∨
      m = LintMessage.RevokedEntry ∨
      ∃ w, m = LintMessage.WeirdCharacters w := by
  unfold lint_field at h
  split_ifs at h <;> (try cases h) <;> simp

theorem lint_entry_msg_cases {o : MapOrder} {st : LinterState} {e : BibEntry}
    {m : LintMessage} (h : m ∈ (lint_entry o st e).map Lint.msg) :
    (∃ f, m = LintMessage.MissingField f ∧
      f ∈ ["author".data, "title".data, "year".data] ∧
      contains_key (entry_fields_map e) f = false) ∨
    (∃ f, m = LintMessage.MissingOptionalField f ∧ f ∈ ["sha256".data] ∧
      contains_key (entry_fields_map e) f = false) ∨
    (m = LintMessage.UncheckableEntry ∧
      contains_key (entry_fields_map e) "url".data = false ∧
      contains_key (entry_fields_map e) "doi".data = false ∧
      contains_key (entry_fields_map e) "isbn".data = false ∧
      contains_key (entry_fields_map e) "issn".data = false ∧
      contains_key (entry_fields_map e) "eprint".data = false ∧
      contains_key (entry_fields_map e) "pmid".data = false) ∨
    (∃ nm, m = LintMessage.DuplicateFieldName nm) ∨
    (∃ k v, lint_field st.revoked_dois k v = some m) := by
  rcases List.mem_map.mp h with ⟨li, hli, rfl⟩
  unfold lint_entry at hli
  simp only [List.mem_append] at hli
  rcases hli with (((h1 | h2) | h3) | h4) | h5
  · rcases List.mem_filterMap.mp h1 with ⟨f, hf, hsome⟩
    by_cases hc : contains_key (entry_fields_map e) f = true
    · rw [if_pos hc] at hsome
      cases hsome
    · rw [if_neg hc] at hsome
      cases hsome
      exact Or.inl ⟨f, rfl, hf, Bool.eq_false_iff.mpr hc⟩
  · rcases List.mem_filterMap.mp h2 with ⟨f, hf, hsome⟩
    by_cases hc : contains_key (entry_fields_map e) f = true
    · rw [if_pos hc] at hsome
      cases hsome
    · rw [if_neg hc] at hsome
      cases hsome
      exact Or.inr (Or.inl ⟨f, rfl, hf, Bool.eq_false_iff.mpr hc⟩)
  · rw [mem_ite_nil] at h3
    rcases h3 with ⟨hcond, hmem⟩
    rcases List.mem_singleton.mp hmem with rfl
    exact Or.inr (Or.inr (Or.inl ⟨rfl, hcond.1, hcond.2.1, hcond.2.2.1,
      hcond.2.2.2.1, hcond.2.2.2.2.1, hcond.2.2.2.2.2⟩))
  · rcases List.mem_filterMap.mp h4 with ⟨g, hg, hsome⟩
    by_cases hlen : 1 < g.2.length
    · rw [if_pos hlen] at hsome
      cases hsome
      exact Or.inr (Or.inr (Or.inr (Or.inl ⟨g.1, rfl⟩)))
    · rw [if_neg hlen] at hsome
      cases hsome
  · rcases List.mem_filterMap.mp h5 with ⟨fl, hfl, hsome⟩
    rcases Option.map_eq_some'.mp hsome with ⟨msg, hmsg, hli⟩
    cases hli
    exact Or.inr (Or.inr (Or.inr (Or.inr ⟨fl.name, fl.value, hmsg⟩)))

theorem missing_field_mem {o : MapOrder} {st : LinterState} {e : BibEntry}
    {f : List Char} (hf : f ∈ ["author".data, "title".data, "year".data])
    (hc : contains_key (entry_fields_map e) f = false) :
    LintMessage.MissingField f ∈ (lint_entry o st e).map Lint.msg := by
  apply List.mem_map.mpr
  refine ⟨{ msg := LintMessage.MissingField f, loc := [e.loc] }, ?_, rfl⟩
  unfold lint_entry
  simp only [List.mem_append]
  refine Or.inl (Or.inl (Or.inl (Or.inl ?_)))
  apply List.mem_filterMap.mpr
  exact ⟨f, hf, by rw [if_neg (by simp [hc])]⟩

theorem missing_opt_mem {o : MapOrder} {st : LinterState} {e : BibEntry}
    {f : List Char} (hf : f ∈ ["sha256".data])
    (hc : contains_key (entry_fields_map e) f = false) :
    LintMessage.MissingOptionalField f ∈ (lint_entry o st e).map Lint.msg := by
  apply List.mem_map.mpr
  refine ⟨{ msg := LintMessage.MissingOptionalField f, loc := [e.loc] }, ?_,
    rfl⟩
  unfold lint_entry
  simp only [List.mem_append]
  refine Or.inl (Or.inl (Or.inl (Or.inr ?_)))
  apply List.mem_filterMap.mpr
  exact ⟨f, hf, by rw [if_neg (by simp [hc])]⟩

theorem uncheckable_mem {o : MapOrder} {st : LinterState} {e : BibEntry}
    (h1 : contains_key (entry_fields_map e) "url".data = false)
    (h2 : contains_key (entry_fields_map e) "doi".data = false)
    (h3 : contains_key (entry_fields_map e) "isbn".data = false)
    (h4 : contains_key (entry_fields_map e) "issn".data = false)
    (h5 : contains_key (entry_fields_map e) "eprint".data = false)
    (h6 : contains_key (entry_fields_map e) "pmid".data = false) :
    LintMessage.UncheckableEntry ∈ (lint_entry o st e).map Lint.msg := by
  apply List.mem_map.mpr
  refine ⟨{ msg := LintMessage.UncheckableEntry, loc := [e.loc] }, ?_, rfl⟩
  unfold lint_entry
  simp only [List.mem_append]
  refine Or.inl (Or.inl (Or.inr ?_))
  rw [mem_ite_nil]
  exact ⟨⟨h1, h2, h3, h4, h5, h6⟩, List.mem_singleton.mpr rfl⟩

/-- C10: with duplicated field names in an entry, the presence-based checks
(`MissingField`, `MissingOptionalField`, `UncheckableEntry`) treat a name as
present exactly when at least one occurrence exists, and the identifier tuple
of `lint_file` reads, for each identifier field name, the value of the last
occurrence of that field (the collected `HashMap` lets later occurrences
shadow earlier ones). -/
theorem c10_duplicate_fields_shadowing (o : MapOrder) (st : LinterState)
    (e : BibEntry) :
    (∀ f, LintMessage.MissingField f ∈ (lint_entry o st e).map Lint.msg ↔
      (f ∈ ["author".data, "title".data, "year".data] ∧
        ¬∃ fl ∈ e.fields, fl.name = f)) ∧
    (∀ f, LintMessage.MissingOptionalField f ∈
        (lint_entry o st e).map Lint.msg ↔
      (f ∈ ["sha256".data] ∧ ¬∃ fl ∈ e.fields, fl.name = f)) ∧
    (LintMessage.UncheckableEntry ∈ (lint_entry o st e).map Lint.msg ↔
      ∀ n ∈ ["url".data, "doi".data, "isbn".data, "issn".data,
        "eprint".data, "pmid".data], ¬∃ fl ∈ e.fields, fl.name = n) ∧
    ident_tuple e =
      ((((e.fields.filter fun fl =>
            decide (fl.name = "doi".data)).getLast?).map
          fun fl => fl.value).getD [],
       (((e.fields.filter fun fl =>
            decide (fl.name = "arxiv".data)).getLast?).map
          fun fl => fl.value).getD [],
       (((e.fields.filter fun fl =>
            decide (fl.name = "sha256".data)).getLast?).map
          fun fl => fl.value).getD []) := by
  have hkey : ∀ n, contains_key (entry_fields_map e) n = false ↔
      ¬∃ fl ∈ e.fields, fl.name = n := by
    intro n
    rw [Bool.eq_false_iff]
    exact not_congr (contains_key_entry e n)
  refine ⟨?_, ?_, ?_, ?_⟩
  · intro f
    constructor
    · intro h
      rcases lint_entry_msg_cases h with ⟨g, hg, hmem, hc⟩ | ⟨g, hg, -, -⟩ |
        ⟨hg, -⟩ | ⟨nm, hg⟩ | ⟨k, v, hlf⟩
      · injection hg with hfg
        subst hfg
        exact ⟨hmem, (hkey f).mp hc⟩
      · simp at hg
      · simp at hg
      · simp at hg
      · rcases lint_field_shapes hlf with h' | h' | h' | h' | h' | ⟨w, h'⟩ <;>
          simp at h'
    · rintro ⟨hmem, hno⟩
      exact missing_field_mem hmem ((hkey f).mpr hno)
  · intro f
    constructor
    · intro h
      rcases lint_entry_msg_cases h with ⟨g, hg, -, -⟩ | ⟨g, hg, hmem, hc⟩ |
        ⟨hg, -⟩ | ⟨nm, hg⟩ | ⟨k, v, hlf⟩
      · simp at hg
      · injection hg with hfg
        subst hfg
        exact ⟨hmem, (hkey f).mp hc⟩
      · simp at hg
      · simp at hg
      · rcases lint_field_shapes hlf with h' | h' | h' | h' | h' | ⟨w, h'⟩ <;>
          simp at h'
    · rintro ⟨hmem, hno⟩
      exact missing_opt_mem hmem ((hkey f).mpr hno)
  · constructor
    · intro h
      rcases lint_entry_msg_cases h with ⟨g, hg, -, -⟩ | ⟨g, hg, -, -⟩ |
        ⟨-, h1, h2, h3, h4, h5, h6⟩ | ⟨nm, hg⟩ | ⟨k, v, hlf⟩
      · simp at hg
      · simp at hg
      · intro n hn
        simp only [List.mem_cons, List.not_mem_nil, or_false] at hn
        rcases hn with rfl | rfl | rfl | rfl | rfl | rfl
        · exact (hkey _).mp h1
        · exact (hkey _).mp h2
        · exact (hkey _).mp h3
        · exact (hkey _).mp h4
        · exact (hkey _).mp h5
        · exact (hkey _).mp h6
      · simp at hg
      · rcases lint_field_shapes hlf with h' | h' | h' | h' | h' | ⟨w, h'⟩ <;>
          simp at h'
    · intro h
      exact uncheckable_mem ((hkey _).mpr (h _ (by simp)))
        ((hkey _).mpr (h _ (by simp))) ((hkey _).mpr (h _ (by simp)))
        ((hkey _).mpr (h _ (by simp))) ((hkey _).mpr (h _ (by simp)))
        ((hkey _).mpr (h _ (by simp)))
  · unfold ident_tuple tuple_using
    rw [map_get_entry_fields, map_get_entry_fields, map_get_entry_fields]

theorem lint_entry_no_dup_tuple {o : MapOrder} {st : LinterState}
    {e : BibEntry} : ∀ li ∈ lint_entry o st e, is_dup_tuple_lint li = false := by
  intro li hli
  have hmsg : li.msg ∈ (lint_entry o st e).map Lint.msg :=
    List.mem_map_of_mem _ hli
  rcases lint_entry_msg_cases hmsg with ⟨f, hg, -, -⟩ | ⟨f, hg, -, -⟩ |
    ⟨hg, -⟩ | ⟨nm, hg⟩ | ⟨k, v, hlf⟩
  · simp [is_dup_tuple_lint, hg]
  · simp [is_dup_tuple_lint, hg]
  · simp [is_dup_tuple_lint, hg]
  · simp [is_dup_tuple_lint, hg]
  · rcases lint_field_shapes hlf with h' | h' | h' | h' | h' | ⟨w, h'⟩ <;>
      simp [is_dup_tuple_lint, h']

/-- C2 counterexample: the claim says the identifier tuple's middle component
is the value of the entry's `eprint` field.  On a document whose two entries
agree on an `eprint` field (and have no `doi`, `arxiv` or `sha256` fields),
the claim demands one `DuplicateDoiArxivSha256` diagnostic, but `lint_file`
emits none — the code reads the `arxiv` field, not `eprint`, so the tuple is
entirely empty. -/
theorem c2_counterexample :
    ¬ List.Perm ((lint_file id_order st0 file0 es_eprint).filter
        is_dup_tuple_lint)
      (claim_tuple_diagnostics "eprint".data es_eprint) := by
  decide

/-- C2 (amended): the `DuplicateDoiArxivSha256` diagnostics of `lint_file`
are (as a multiset, the iteration order being unspecified) exactly one
diagnostic per group of the per-entry tuples (doi-or-empty,
**arxiv-field**-or-empty, sha256-or-empty) that is not entirely empty and
has more than one entry, carrying all the group's entry locations. -/
theorem c2_amended_tuple_uses_arxiv_field (o : MapOrder) (h : o.lawful)
    (st : LinterState) (f : BibFile) (es : List BibEntry) :
    List.Perm ((lint_file o st f es).filter is_dup_tuple_lint)
      (claim_tuple_diagnostics "arxiv".data es) := by
  unfold lint_file
  rw [List.filter_append, List.filter_append, List.filter_append]
  have hsyn : (f.errors.map fun p =>
      ({ msg := LintMessage.SyntaxError p.1, loc := [p.2] } : Lint)).filter
        is_dup_tuple_lint = [] := by
    rw [List.filter_eq_nil_iff]
    intro li hli
    rcases List.mem_map.mp hli with ⟨p, -, rfl⟩
    simp [is_dup_tuple_lint]
  have hentry : ((es.flatMap (lint_entry o st)).filter is_dup_tuple_lint)
      = [] := by
    rw [List.filter_eq_nil_iff]
    intro li hli
    rcases List.mem_flatMap.mp hli with ⟨e, -, hmem⟩
    simp [lint_entry_no_dup_tuple li hmem]
  have hkeys : (((o.okeys (group_pairs (es.map fun e =>
      (e.key, e.loc)))).filterMap fun g =>
        if 1 < g.2.length then
          some { msg := LintMessage.DuplicateKey g.1, loc := g.2 }
        else none).filter is_dup_tuple_lint) = [] := by
    rw [List.filter_eq_nil_iff]
    intro li hli
    rcases List.mem_filterMap.mp hli with ⟨g, -, hsome⟩
    by_cases hlen : 1 < g.2.length
    · rw [if_pos hlen] at hsome
      cases hsome
      simp [is_dup_tuple_lint]
    · rw [if_neg hlen] at hsome
      cases hsome
  have htup : (((o.otuples (group_pairs (es.map fun e =>
      (ident_tuple e, e.loc)))).filterMap fun g =>
        if dup_tuple_qualifies g then
          some { msg := LintMessage.DuplicateDoiArxivSha256 g.1.1 g.1.2.1
                   g.1.2.2,
                 loc := g.2 }
        else none).filter is_dup_tuple_lint) =
      ((o.otuples (group_pairs (es.map fun e =>
        (ident_tuple e, e.loc)))).filterMap fun g =>
          if dup_tuple_qualifies g then
            some { msg := LintMessage.DuplicateDoiArxivSha256 g.1.1 g.1.2.1
                     g.1.2.2,
                   loc := g.2 }
          else none) := by
    rw [List.filter_eq_self]
    intro li hli
    rcases List.mem_filterMap.mp hli with ⟨g, -, hsome⟩
    by_cases hq : dup_tuple_qualifies g
    · rw [if_pos hq] at hsome
      cases hsome
      simp [is_dup_tuple_lint]
    · rw [if_neg hq] at hsome
      cases hsome
  rw [hsyn, hentry, hkeys, htup]
  simp only [List.nil_append, List.append_nil]
  exact List.Perm.filterMap _ (h.2.2 _)

/-- C2 witness: the amended statement at a concrete document whose two
entries agree on an `arxiv` field, under the insertion iteration order. -/
theorem c2_witness :
    id_order.lawful ∧
      List.Perm ((lint_file id_order st0 file0 es_arxiv).filter
          is_dup_tuple_lint)
        (claim_tuple_diagnostics "arxiv".data es_arxiv) :=
  ⟨⟨fun l => List.Perm.refl l, fun l => List.Perm.refl l,
    fun l => List.Perm.refl l⟩,
   c2_amended_tuple_uses_arxiv_field id_order
     ⟨fun l => List.Perm.refl l, fun l => List.Perm.refl l,
       fun l => List.Perm.refl l⟩ st0 file0 es_arxiv⟩

end Bibadac
